import Mathlib

/-!
Shallow embedding of the Mini-Bitcask storage engine
(src/segment.rs, src/index.rs, src/storage.rs).

Modelling conventions:
* Strings are modelled as their UTF-8 byte sequences, `Str := List Nat`
  (the engine treats keys and values opaquely apart from equality and the
  concrete tombstone key "deleted").
* Files are modelled as byte lists.  The segment file is opened with
  `OpenOptions::append(true)`, so under POSIX `O_APPEND` semantics every
  write lands at the current end of file regardless of any preceding
  `seek`; the model reflects that: `Segment.set` and `Segment.delete`
  both append to `data`.  `Segment.delete` does NOT advance
  `write_offset`, exactly as in the source (the Rust code omits the
  update).
* The payload codec is bincode 2 with `config::standard()`: variable-length
  little-endian integer encoding for lengths and enum discriminants,
  strings as length-prefixed raw bytes.
* I/O errors have no model (a single local disk is assumed); fallible
  reads return `Option`, where `none` stands for the error outcomes
  (`UnexpectedEof` mid-frame, decode failure).
-/

namespace MiniBitcask

/-- Keys and values as UTF-8 byte sequences. -/
abbrev Str := List Nat

/-- Struct `Record` from src/segment.rs: one stored key-value pair. -/
structure Record where
  key : Str
  value : Str
deriving DecidableEq

/-- Enum `WalOperation` from src/segment.rs: an operation logged in the WAL. -/
inductive WalOperation where
  | set (key value : Str)
  | delete (key : Str)
deriving DecidableEq

/-! ### Record codec (bincode `config::standard()`) -/

/-- The `k` bytes of `n` in little-endian order (fixed width, truncating). -/
def toLEBytes : Nat → Nat → List Nat
  | 0, _ => []
  | k + 1, n => n % 256 :: toLEBytes k (n / 256)

/-- Read a little-endian byte list back as a number. -/
def fromLEBytes : List Nat → Nat
  | [] => 0
  | b :: bs => b + 256 * fromLEBytes bs

/-- bincode standard-config variable-length integer encoding
(single byte below 251, otherwise a marker byte and a fixed-width
little-endian tail). -/
def encodeVarint (n : Nat) : List Nat :=
  if n < 251 then [n]
  else if n < 2 ^ 16 then 251 :: toLEBytes 2 n
  else if n < 2 ^ 32 then 252 :: toLEBytes 4 n
  else 253 :: toLEBytes 8 n

/-- bincode variable-length integer decoding; returns the value and the
remaining bytes. -/
def decodeVarint : List Nat → Option (Nat × List Nat)
  | [] => none
  | b :: bs =>
    if b < 251 then some (b, bs)
    else if b = 251 then
      if 2 ≤ bs.length then some (fromLEBytes (bs.take 2), bs.drop 2) else none
    else if b = 252 then
      if 4 ≤ bs.length then some (fromLEBytes (bs.take 4), bs.drop 4) else none
    else if b = 253 then
      if 8 ≤ bs.length then some (fromLEBytes (bs.take 8), bs.drop 8) else none
    else none

/-- A bincode string: varint byte length, then the raw bytes. -/
def encodeStr (s : Str) : List Nat :=
  encodeVarint s.length ++ s

/-- Decode a bincode string; returns the bytes and the remainder. -/
def decodeStr (bs : List Nat) : Option (Str × List Nat) :=
  match decodeVarint bs with
  | none => none
  | some (n, rest) =>
    if n ≤ rest.length then some (rest.take n, rest.drop n) else none

/-- bincode payload of a `Record`: key then value. -/
def encodeRecord (r : Record) : List Nat :=
  encodeStr r.key ++ encodeStr r.value

/-- Decode a `Record` payload (prefix decode, trailing bytes allowed,
as `bincode::decode_from_slice` does). -/
def decodeRecord (bs : List Nat) : Option (Record × List Nat) :=
  match decodeStr bs with
  | none => none
  | some (k, r1) =>
    match decodeStr r1 with
    | none => none
    | some (v, r2) => some (⟨k, v⟩, r2)

/-- bincode payload of a `WalOperation`: u32 varint discriminant, then
the variant's fields. -/
def encodeWalOp : WalOperation → List Nat
  | .set k v => encodeVarint 0 ++ encodeStr k ++ encodeStr v
  | .delete k => encodeVarint 1 ++ encodeStr k

/-- Decode a `WalOperation` payload (prefix decode). -/
def decodeWalOp (bs : List Nat) : Option (WalOperation × List Nat) :=
  match decodeVarint bs with
  | none => none
  | some (tag, rest) =>
    if tag = 0 then
      match decodeStr rest with
      | none => none
      | some (k, r1) =>
        match decodeStr r1 with
        | none => none
        | some (v, r2) => some (.set k v, r2)
    else if tag = 1 then
      match decodeStr rest with
      | none => none
      | some (k, r1) => some (.delete k, r1)
    else none

/-- On-disk frame shared by the segment file and the WAL:
`u32` little-endian payload size (`serialized.len() as u32`, hence the
`% 2 ^ 32`), then the payload bytes. -/
def frame (payload : List Nat) : List Nat :=
  toLEBytes 4 (payload.length % 2 ^ 32) ++ payload

/-! ### Segment (src/segment.rs) -/

/-- Struct `Segment`: the record file plus the `write_offset` cursor the code
tracks by hand. -/
structure Segment where
  data : List Nat
  write_offset : Nat
deriving DecidableEq

/-- Constructor `Segment::new`: open the file, `write_offset` starts at the file
length. -/
def Segment.new (fileData : List Nat) : Segment :=
  { data := fileData, write_offset := fileData.length }

/-- The sentinel record `Segment::delete` writes:
`Record { key: "deleted", value: "" }`  ("deleted" as UTF-8 bytes). -/
def tombstone : Record :=
  { key := [100, 101, 108, 101, 116, 101, 100], value := [] }

/-- Method `Segment::set`: serialize the record, remember `write_offset` as the
returned offset, append the frame (the file is in append mode, so the
bytes land at end of file), advance `write_offset` by the frame length. -/
def Segment.set (s : Segment) (key value : Str) : Nat × Segment :=
  let serialized := encodeRecord { key := key, value := value }
  let offset := s.write_offset
  (offset,
    { data := s.data ++ frame serialized
      write_offset := s.write_offset + 4 + serialized.length })

/-- Method `Segment::get`: seek to `offset`, read a 4-byte size prefix, read
that many payload bytes, decode.  `none` models the error outcomes
(short read, decode failure); the Rust code never returns `Ok(None)`. -/
def Segment.get (s : Segment) (offset : Nat) : Option Record :=
  let rest := s.data.drop offset
  if 4 ≤ rest.length then
    let size := fromLEBytes (rest.take 4)
    let rest2 := rest.drop 4
    if size ≤ rest2.length then
      match decodeRecord (rest2.take size) with
      | some (r, _) => some r
      | none => none
    else none
  else none

/-- Method `Segment::delete`: the code seeks to `offset` and writes a tombstone
frame, but the file is open in append mode, so the frame is appended at
the end of file; `write_offset` is not advanced (the source omits the
update). -/
def Segment.delete (s : Segment) (_offset : Nat) : Segment :=
  { data := s.data ++ frame (encodeRecord tombstone)
    write_offset := s.write_offset }

/-! ### WAL segment (src/segment.rs) -/

/-- Struct `WalSegment`: the WAL file. -/
structure WalSegment where
  data : List Nat
deriving DecidableEq

/-- Constructor `WalSegment::new`: open the WAL file. -/
def WalSegment.new (fileData : List Nat) : WalSegment :=
  { data := fileData }

/-- Method `WalSegment::log_operation`: append one framed operation at end of
file. -/
def WalSegment.logOperation (w : WalSegment) (op : WalOperation) : WalSegment :=
  { data := w.data ++ frame (encodeWalOp op) }

/-- The read loop of `WalSegment::read_operations`, with explicit fuel
so that the recursion is structural (each iteration consumes at least 4
bytes, so `bs.length` is always enough fuel; running out of fuel with 4
or more bytes left cannot then occur and is mapped to the error
outcome).  A failed 4-byte size-prefix read (`UnexpectedEof`) ends the
loop successfully; a short payload read or a decode failure is an error
(`none`). -/
def walReadLoopFuel : Nat → List Nat → Option (List WalOperation)
  | 0, bs => if bs.length < 4 then some [] else none
  | fuel + 1, bs =>
    if bs.length < 4 then some []
    else
      let size := fromLEBytes (bs.take 4)
      let rest := bs.drop 4
      if size ≤ rest.length then
        match decodeWalOp (rest.take size) with
        | some (op, _) =>
          match walReadLoopFuel fuel (rest.drop size) with
          | some ops => some (op :: ops)
          | none => none
        | none => none
      else none

/-- The read loop at its canonical fuel. -/
def walReadLoop (bs : List Nat) : Option (List WalOperation) :=
  walReadLoopFuel bs.length bs

/-- Method `WalSegment::read_operations`: decode all frames from the start. -/
def WalSegment.readOperations (w : WalSegment) : Option (List WalOperation) :=
  walReadLoop w.data

/-- Method `WalSegment::clear`: truncate the file to length zero. -/
def WalSegment.clear (_w : WalSegment) : WalSegment :=
  { data := [] }

/-! ### Index (src/index.rs) -/

/-- Struct `Index`: the in-memory `HashMap<String, u64>`, modelled as an
association list (most recent binding first). -/
structure Index where
  map : List (Str × Nat)
deriving DecidableEq

/-- Constructor `Index::new`: empty index. -/
def Index.new : Index := { map := [] }

/-- Method `HashMap::insert`: upsert, overwriting any prior offset for the
key. -/
def Index.insert (i : Index) (key : Str) (offset : Nat) : Index :=
  { map := (key, offset) :: i.map.filter (fun p => !(p.1 == key)) }

/-- Method `Index::get_offset`: lookup. -/
def Index.getOffset (i : Index) (key : Str) : Option Nat :=
  (i.map.find? (fun p => p.1 == key)).map (·.2)

/-- Method `HashMap::remove` (used as `self.index.map.remove(&key)` in
src/storage.rs): drop the binding if present. -/
def Index.remove (i : Index) (key : Str) : Index :=
  { map := i.map.filter (fun p => !(p.1 == key)) }

/-! ### Storage engine (src/storage.rs) -/

/-- Caller-visible errors of src/storage.rs (all carried as
`std::io::Error`; the usage errors are distinguished by their message). -/
inductive StorageError where
  | transactionAlreadyActive
  | noActiveTransaction
  | corruptFrame
deriving DecidableEq

/-- Struct `Storage`: segment, index, WAL and the transaction flag. -/
structure Storage where
  segment : Segment
  index : Index
  wal : WalSegment
  in_transaction : Bool
deriving DecidableEq

/-- One arm of the replay `match` shared verbatim by `Storage::new` and
`Storage::commit`: a `Set` is applied to the segment and the index, a
`Delete` writes a tombstone and drops the index entry only when the key
is currently indexed. -/
def Storage.applyOp (s : Storage) : WalOperation → Storage
  | .set key value =>
    let r := s.segment.set key value
    { s with segment := r.2, index := s.index.insert key r.1 }
  | .delete key =>
    match s.index.getOffset key with
    | some offset =>
      { s with segment := s.segment.delete offset, index := s.index.remove key }
    | none => s

/-- The replay loop: apply operations in the order recorded. -/
def Storage.applyOps (s : Storage) (ops : List WalOperation) : Storage :=
  ops.foldl Storage.applyOp s

/-- Constructor `Storage::new`: open segment and WAL, start `Idle` with an empty
index, read the WAL, and if it is non-empty replay every operation in
order and then clear the WAL.  `none` models a failing WAL read. -/
def Storage.new (segData walData : List Nat) : Option Storage :=
  let st : Storage :=
    { segment := Segment.new segData
      index := Index.new
      wal := WalSegment.new walData
      in_transaction := false }
  match st.wal.readOperations with
  | none => none
  | some ops =>
    if ops.isEmpty then some st
    else some { st.applyOps ops with wal := { data := [] } }

/-- Method `Storage::begin_transaction`: usage error if a transaction is
already active, otherwise raise the flag and clear the WAL.  The state
is returned alongside the result so that failure visibly leaves it
untouched. -/
def Storage.beginTransaction (s : Storage) : Except StorageError Unit × Storage :=
  if s.in_transaction then (.error .transactionAlreadyActive, s)
  else (.ok (), { s with in_transaction := true, wal := s.wal.clear })

/-- Method `Storage::commit`: usage error if no transaction is active;
otherwise read the buffered WAL operations, apply each in order exactly
as the replay arm does, clear the WAL, drop the flag. -/
def Storage.commit (s : Storage) : Except StorageError Unit × Storage :=
  if s.in_transaction then
    match s.wal.readOperations with
    | none => (.error .corruptFrame, s)
    | some ops =>
      (.ok (), { s.applyOps ops with wal := s.wal.clear, in_transaction := false })
  else (.error .noActiveTransaction, s)

/-- Method `Storage::rollback`: no usage check at all — clear the WAL and drop
the flag, in every state. -/
def Storage.rollback (s : Storage) : Except StorageError Unit × Storage :=
  (.ok (), { s with wal := s.wal.clear, in_transaction := false })

/-- Method `Storage::set`: inside a transaction, log a `Set` to the WAL and
return the placeholder offset 0; otherwise apply directly to segment and
index and return the real offset. -/
def Storage.set (s : Storage) (key value : Str) : Nat × Storage :=
  if s.in_transaction then
    (0, { s with wal := s.wal.logOperation (.set key value) })
  else
    let r := s.segment.set key value
    (r.1, { s with segment := r.2, index := s.index.insert key r.1 })

/-- Method `Storage::get`: read through index and segment regardless of
transaction state; `none` models a propagated read error, `some none`
is "key not found". -/
def Storage.get (s : Storage) (key : Str) : Option (Option Str) :=
  match s.index.getOffset key with
  | some offset =>
    match s.segment.get offset with
    | some r => some (some r.value)
    | none => none
  | none => some none

/-- Method `Storage::delete`: inside a transaction, log a `Delete` to the WAL;
otherwise write a tombstone and drop the index entry when the key is
indexed, succeed as a no-op when it is not. -/
def Storage.deleteKey (s : Storage) (key : Str) : Storage :=
  if s.in_transaction then
    { s with wal := s.wal.logOperation (.delete key) }
  else
    match s.index.getOffset key with
    | some offset =>
      { s with segment := s.segment.delete offset, index := s.index.remove key }
    | none => s

/-- Issuing a list of mutating calls through the public `set`/`delete`
API, in order (the shape of a transaction body). -/
def Storage.runCalls (s : Storage) (calls : List WalOperation) : Storage :=
  calls.foldl
    (fun s op =>
      match op with
      | .set k v => (s.set k v).2
      | .delete k => s.deleteKey k)
    s

/-- Encoding of a list of operations as WAL file bytes (the contents of
the WAL after exactly these operations were logged onto an empty
file). -/
def walEncode (ops : List WalOperation) : List Nat :=
  (ops.map (fun op => frame (encodeWalOp op))).flatten

/-- A single engine step through the public mutating interface
(`get` does not change the model state).  Failing `begin`/`commit`
calls are included: they step to the returned (unchanged) state. -/
inductive Step : Storage → Storage → Prop
  | set (s : Storage) (k v : Str) : Step s (s.set k v).2
  | deleteKey (s : Storage) (k : Str) : Step s (s.deleteKey k)
  | beginTransaction (s : Storage) : Step s s.beginTransaction.2
  | commit (s : Storage) : Step s s.commit.2
  | rollback (s : Storage) : Step s s.rollback.2

/-- The encoded payload of an operation fits the `u32` size prefix
(always true of what fits in a real file; `serialized.len() as u32`
truncates beyond it). -/
def WalOperation.fits (op : WalOperation) : Prop :=
  (encodeWalOp op).length < 2 ^ 32

instance (op : WalOperation) : Decidable op.fits := by
  unfold WalOperation.fits; infer_instance

/-- States reachable from a freshly opened engine.  The engine is opened
over an arbitrary segment file and a WAL file left by a clean process or
by a crash after only whole frames were logged (`walEncode ops`); a
crash itself is not modelled. -/
inductive Reachable : Storage → Prop
  | base (segData : List Nat) (ops : List WalOperation) (st : Storage)
      (hfits : ∀ op ∈ ops, op.fits)
      (hnew : Storage.new segData (walEncode ops) = some st) : Reachable st
  | step (s s' : Storage) (hs : Reachable s) (hstep : Step s s') : Reachable s'

/-! ### Concrete states used by witnesses and counterexamples -/

/-- The byte string "a". -/
def keyA : Str := [97]

/-- The byte string "b". -/
def keyB : Str := [98]

/-- The byte string "c". -/
def keyC : Str := [99]

/-- The byte string "1". -/
def valOne : Str := [49]

/-- The byte string "2". -/
def valTwo : Str := [50]

/-- The byte string "3". -/
def valThree : Str := [51]

/-- The engine opened over an empty segment file and an empty WAL. -/
def freshStorage : Storage :=
  { segment := Segment.new []
    index := Index.new
    wal := WalSegment.new []
    in_transaction := false }

/-- The reachable direct-mode state after `set("a","1")` then
`delete("a")` on a fresh engine: the tombstone append has left
`write_offset` (8) behind the real end of file (21). -/
def afterDesync : Storage :=
  (freshStorage.set keyA valOne).2.deleteKey keyA

/-- The WAL contents of the crash-recovery scenario of P6. -/
def recoveryWalOps : List WalOperation :=
  [.set keyA valOne, .set keyB valTwo, .delete keyA]

/-- The segment/index part of one replay arm, as a pure function of the
segment and the index alone (proof helper: replay never reads the WAL
or the transaction flag). -/
def applyOpSI : Segment × Index → WalOperation → Segment × Index
  | (seg, idx), .set k v =>
    let r := seg.set k v
    (r.2, idx.insert k r.1)
  | (seg, idx), .delete k =>
    match idx.getOffset k with
    | some off => (seg.delete off, idx.remove k)
    | none => (seg, idx)

/-! ### Codec lemmas -/

theorem toLEBytes_length (k n : Nat) : (toLEBytes k n).length = k := by
  induction k generalizing n with
  | zero => rfl
  | succ k ih => simp [toLEBytes, ih]

theorem fromLEBytes_toLEBytes (k n : Nat) :
    fromLEBytes (toLEBytes k n) = n % 256 ^ k := by
  induction k generalizing n with
  | zero => simp [toLEBytes, fromLEBytes, Nat.mod_one]
  | succ k ih =>
    simp only [toLEBytes, fromLEBytes, ih]
    rw [pow_succ, mul_comm (256 ^ k) 256, Nat.mod_mul]

theorem take_append_length (l r : List Nat) : (l ++ r).take l.length = l :=
  List.take_left l r

theorem drop_append_length (l r : List Nat) : (l ++ r).drop l.length = r :=
  List.drop_left l r

theorem decodeVarint_marker (m k : Nat) (tail rest : List Nat)
    (hm : m = 251 ∧ k = 2 ∨ m = 252 ∧ k = 4 ∨ m = 253 ∧ k = 8)
    (htail : tail.length = k) :
    decodeVarint (m :: (tail ++ rest)) = some (fromLEBytes tail, rest) := by
  have htake : (tail ++ rest).take k = tail := by
    rw [← htail, take_append_length]
  have hdrop : (tail ++ rest).drop k = rest := by
    rw [← htail, drop_append_length]
  have hlen : k ≤ (tail ++ rest).length := by
    simp [htail]
  rcases hm with ⟨hm, hk⟩ | ⟨hm, hk⟩ | ⟨hm, hk⟩ <;> subst hm <;> subst hk <;>
    simp only [decodeVarint] <;>
    norm_num <;>
    exact ⟨by simpa using hlen, by rw [htake], hdrop⟩

theorem decodeVarint_encodeVarint (n : Nat) (h : n < 2 ^ 64) (rest : List Nat) :
    decodeVarint (encodeVarint n ++ rest) = some (n, rest) := by
  unfold encodeVarint
  split
  · next h1 => simp [decodeVarint, h1]
  · next h1 =>
    split
    · next h2 =>
      rw [List.cons_append,
        decodeVarint_marker 251 2 _ rest (by omega) (toLEBytes_length 2 n),
        fromLEBytes_toLEBytes]
      congr 1
      rw [Nat.mod_eq_of_lt (by norm_num at h2 ⊢; omega)]
    · next h2 =>
      split
      · next h3 =>
        rw [List.cons_append,
          decodeVarint_marker 252 4 _ rest (by omega) (toLEBytes_length 4 n),
          fromLEBytes_toLEBytes]
        congr 1
        rw [Nat.mod_eq_of_lt (by norm_num at h3 ⊢; omega)]
      · next h3 =>
        rw [List.cons_append,
          decodeVarint_marker 253 8 _ rest (by omega) (toLEBytes_length 8 n),
          fromLEBytes_toLEBytes]
        congr 1
        rw [Nat.mod_eq_of_lt (by norm_num at h ⊢; omega)]

theorem decodeStr_encodeStr (s : Str) (h : s.length < 2 ^ 64) (rest : List Nat) :
    decodeStr (encodeStr s ++ rest) = some (s, rest) := by
  unfold decodeStr encodeStr
  rw [List.append_assoc, decodeVarint_encodeVarint s.length h]
  simp only [take_append_length, drop_append_length, List.length_append]
  rw [if_pos (by omega)]

theorem length_le_encodeStr (s : Str) : s.length ≤ (encodeStr s).length := by
  unfold encodeStr
  simp

theorem decodeRecord_encodeRecord (r : Record)
    (hk : r.key.length < 2 ^ 64) (hv : r.value.length < 2 ^ 64) (rest : List Nat) :
    decodeRecord (encodeRecord r ++ rest) = some (r, rest) := by
  unfold decodeRecord encodeRecord
  rw [List.append_assoc, decodeStr_encodeStr r.key hk]
  simp only [decodeStr_encodeStr r.value hv]

theorem decodeWalOp_encodeWalOp (op : WalOperation) (h : op.fits) (rest : List Nat) :
    decodeWalOp (encodeWalOp op ++ rest) = some (op, rest) := by
  unfold WalOperation.fits at h
  cases op with
  | set k v =>
    have he : encodeWalOp (.set k v) = encodeVarint 0 ++ (encodeStr k ++ encodeStr v) := by
      rw [encodeWalOp, List.append_assoc]
    rw [he] at h ⊢
    have hk : k.length < 2 ^ 64 := by
      have h1 := length_le_encodeStr k
      simp only [List.length_append] at h
      norm_num at h ⊢
      omega
    have hv : v.length < 2 ^ 64 := by
      have h1 := length_le_encodeStr v
      simp only [List.length_append] at h
      norm_num at h ⊢
      omega
    unfold decodeWalOp
    rw [List.append_assoc, decodeVarint_encodeVarint 0 (by norm_num),
      List.append_assoc]
    simp [decodeStr_encodeStr k hk, decodeStr_encodeStr v hv]
  | delete k =>
    have he : encodeWalOp (.delete k) = encodeVarint 1 ++ encodeStr k := rfl
    rw [he] at h ⊢
    have hk : k.length < 2 ^ 64 := by
      have h1 := length_le_encodeStr k
      simp only [List.length_append] at h
      norm_num at h ⊢
      omega
    unfold decodeWalOp
    rw [List.append_assoc, decodeVarint_encodeVarint 1 (by norm_num)]
    simp only [decodeStr_encodeStr k hk]
    norm_num

/-- Round trip of the WAL read loop over exactly the frames of `ops`,
at any sufficient fuel. -/
theorem walReadLoopFuel_walEncode (ops : List WalOperation) (fuel : Nat)
    (hfits : ∀ op ∈ ops, op.fits) (hfuel : (walEncode ops).length ≤ fuel) :
    walReadLoopFuel fuel (walEncode ops) = some ops := by
  induction ops generalizing fuel with
  | nil =>
    cases fuel with
    | zero => rfl
    | succ fuel => rfl
  | cons op ops ih =>
    have hop : op.fits := hfits op (List.mem_cons_self op ops)
    have hops : ∀ o ∈ ops, o.fits := fun o ho => hfits o (List.mem_cons_of_mem op ho)
    have hlen : (encodeWalOp op).length < 2 ^ 32 := hop
    have hshape : walEncode (op :: ops) =
        toLEBytes 4 ((encodeWalOp op).length % 2 ^ 32) ++
          (encodeWalOp op ++ walEncode ops) := by
      show frame (encodeWalOp op) ++ walEncode ops = _
      rw [frame, List.append_assoc]
    have hlength : (walEncode (op :: ops)).length =
        4 + (encodeWalOp op).length + (walEncode ops).length := by
      rw [hshape]
      simp only [List.length_append, toLEBytes_length]
      omega
    cases fuel with
    | zero =>
      exfalso
      omega
    | succ fuel =>
      have htake := take_append_length (toLEBytes 4 ((encodeWalOp op).length % 2 ^ 32))
        (encodeWalOp op ++ walEncode ops)
      have hdrop := drop_append_length (toLEBytes 4 ((encodeWalOp op).length % 2 ^ 32))
        (encodeWalOp op ++ walEncode ops)
      rw [toLEBytes_length] at htake hdrop
      have hmod : (encodeWalOp op).length % 2 ^ 32 % 256 ^ 4 = (encodeWalOp op).length := by
        norm_num
        omega
      have hdec : decodeWalOp (encodeWalOp op) = some (op, []) := by
        have hd := decodeWalOp_encodeWalOp op hop []
        rwa [List.append_nil] at hd
      rw [hshape]
      show walReadLoopFuel (fuel + 1) _ = _
      unfold walReadLoopFuel
      rw [if_neg (by rw [← hshape]; omega), htake, hdrop, fromLEBytes_toLEBytes, hmod,
        if_pos (by simp), take_append_length, drop_append_length,
        hdec, ih fuel hops (by omega)]

/-- Round trip of `read_operations` over exactly the frames of `ops`. -/
theorem walReadLoop_walEncode (ops : List WalOperation)
    (hfits : ∀ op ∈ ops, op.fits) :
    walReadLoop (walEncode ops) = some ops :=
  walReadLoopFuel_walEncode ops (walEncode ops).length hfits (Nat.le_refl _)

/-! ### Segment lemmas -/

theorem length_frame (p : List Nat) : (frame p).length = 4 + p.length := by
  simp [frame, toLEBytes_length]

theorem length_le_encodeRecord_key (r : Record) :
    r.key.length ≤ (encodeRecord r).length := by
  have h := length_le_encodeStr r.key
  simp only [encodeRecord, List.length_append]
  omega

theorem length_le_encodeRecord_value (r : Record) :
    r.value.length ≤ (encodeRecord r).length := by
  have h := length_le_encodeStr r.value
  simp only [encodeRecord, List.length_append]
  omega

/-- Reading at the byte position where a record's frame starts recovers
the record, whatever bytes surround the frame. -/
theorem Segment.get_frame_start (pre post : List Nat) (r : Record) (w : Nat)
    (h : (encodeRecord r).length < 2 ^ 32) :
    Segment.get ⟨pre ++ (frame (encodeRecord r) ++ post), w⟩ pre.length = some r := by
  have hk : r.key.length < 2 ^ 64 := by
    have := length_le_encodeRecord_key r
    norm_num at h ⊢
    omega
  have hv : r.value.length < 2 ^ 64 := by
    have := length_le_encodeRecord_value r
    norm_num at h ⊢
    omega
  have hdec : decodeRecord (encodeRecord r) = some (r, []) := by
    have hd := decodeRecord_encodeRecord r hk hv []
    rwa [List.append_nil] at hd
  have hshape : frame (encodeRecord r) ++ post =
      toLEBytes 4 ((encodeRecord r).length % 2 ^ 32) ++ (encodeRecord r ++ post) := by
    rw [frame, List.append_assoc]
  have htake := take_append_length (toLEBytes 4 ((encodeRecord r).length % 2 ^ 32))
    (encodeRecord r ++ post)
  have hdrop := drop_append_length (toLEBytes 4 ((encodeRecord r).length % 2 ^ 32))
    (encodeRecord r ++ post)
  rw [toLEBytes_length] at htake hdrop
  have hmod : (encodeRecord r).length % 2 ^ 32 % 256 ^ 4 = (encodeRecord r).length := by
    norm_num
    omega
  unfold Segment.get
  simp only [drop_append_length pre, hshape]
  rw [if_pos (by simp only [List.length_append, toLEBytes_length]; omega), htake, hdrop,
    fromLEBytes_toLEBytes, hmod, if_pos (by simp), take_append_length, hdec]

/-! ### Storage lemmas -/

theorem applyOp_wal (s : Storage) (op : WalOperation) :
    (s.applyOp op).wal = s.wal := by
  cases op with
  | set k v => rfl
  | delete k =>
    simp only [Storage.applyOp]
    split <;> rfl

theorem applyOp_in_transaction (s : Storage) (op : WalOperation) :
    (s.applyOp op).in_transaction = s.in_transaction := by
  cases op with
  | set k v => rfl
  | delete k =>
    simp only [Storage.applyOp]
    split <;> rfl

theorem applyOps_wal (s : Storage) (ops : List WalOperation) :
    (s.applyOps ops).wal = s.wal := by
  induction ops generalizing s with
  | nil => rfl
  | cons op ops ih =>
    show ((s.applyOp op).applyOps ops).wal = s.wal
    rw [ih, applyOp_wal]

theorem applyOps_in_transaction (s : Storage) (ops : List WalOperation) :
    (s.applyOps ops).in_transaction = s.in_transaction := by
  induction ops generalizing s with
  | nil => rfl
  | cons op ops ih =>
    show ((s.applyOp op).applyOps ops).in_transaction = s.in_transaction
    rw [ih, applyOp_in_transaction]

theorem applyOp_SI (s : Storage) (op : WalOperation) :
    (s.applyOp op).segment = (applyOpSI (s.segment, s.index) op).1 ∧
      (s.applyOp op).index = (applyOpSI (s.segment, s.index) op).2 := by
  cases op with
  | set k v => exact ⟨rfl, rfl⟩
  | delete k =>
    simp only [Storage.applyOp, applyOpSI]
    split <;> exact ⟨rfl, rfl⟩

theorem applyOps_SI (s : Storage) (ops : List WalOperation) :
    (s.applyOps ops).segment = (ops.foldl applyOpSI (s.segment, s.index)).1 ∧
      (s.applyOps ops).index = (ops.foldl applyOpSI (s.segment, s.index)).2 := by
  induction ops generalizing s with
  | nil => exact ⟨rfl, rfl⟩
  | cons op ops ih =>
    have h1 := applyOp_SI s op
    have h2 := ih (s.applyOp op)
    have hfold : (op :: ops).foldl applyOpSI (s.segment, s.index) =
        ops.foldl applyOpSI (applyOpSI (s.segment, s.index) op) := rfl
    have hpair : applyOpSI (s.segment, s.index) op =
        ((s.applyOp op).segment, (s.applyOp op).index) := by
      rw [h1.1, h1.2]
    rw [hfold, hpair]
    exact h2

/-- Replay reads only the segment and the index, so it is insensitive to
the WAL contents and the transaction flag. -/
theorem applyOps_congr (s t : Storage) (ops : List WalOperation)
    (hs : s.segment = t.segment) (hi : s.index = t.index) :
    (s.applyOps ops).segment = (t.applyOps ops).segment ∧
      (s.applyOps ops).index = (t.applyOps ops).index := by
  have h1 := applyOps_SI s ops
  have h2 := applyOps_SI t ops
  rw [h1.1, h1.2, h2.1, h2.2, hs, hi]
  exact ⟨rfl, rfl⟩

/-- Lookup `get` reads only the index and the segment. -/
theorem get_congr (s t : Storage) (k : Str)
    (hs : s.segment = t.segment) (hi : s.index = t.index) :
    s.get k = t.get k := by
  unfold Storage.get
  rw [hs, hi]

theorem applyOp_extends_data (s : Storage) (op : WalOperation) :
    s.segment.data <+: (s.applyOp op).segment.data := by
  cases op with
  | set k v => exact List.prefix_append _ _
  | delete k =>
    simp only [Storage.applyOp]
    split
    · exact List.prefix_append _ _
    · exact List.prefix_refl _

theorem applyOps_extends_data (s : Storage) (ops : List WalOperation) :
    s.segment.data <+: (s.applyOps ops).segment.data := by
  induction ops generalizing s with
  | nil => exact List.prefix_refl _
  | cons op ops ih =>
    exact (applyOp_extends_data s op).trans (ih (s.applyOp op))

/-- Issuing calls while the transaction flag is raised only appends the
corresponding operations to the WAL. -/
theorem runCalls_in_transaction (s : Storage) (calls : List WalOperation)
    (h : s.in_transaction = true) :
    s.runCalls calls = { s with wal := ⟨s.wal.data ++ walEncode calls⟩ } := by
  induction calls generalizing s with
  | nil =>
    show s = _
    rw [show walEncode [] = [] from rfl, List.append_nil]
  | cons op calls ih =>
    have henc : walEncode (op :: calls) = frame (encodeWalOp op) ++ walEncode calls := rfl
    cases op with
    | set k v =>
      have hstep : (s.set k v).2 =
          { s with wal := ⟨s.wal.data ++ frame (encodeWalOp (.set k v))⟩ } := by
        unfold Storage.set
        rw [if_pos h]
        rfl
      have hcons : s.runCalls (WalOperation.set k v :: calls) =
          Storage.runCalls (s.set k v).2 calls := rfl
      rw [hcons, hstep, ih _ (by exact h)]
      simp [henc, List.append_assoc]
    | delete k =>
      have hstep : s.deleteKey k =
          { s with wal := ⟨s.wal.data ++ frame (encodeWalOp (.delete k))⟩ } := by
        unfold Storage.deleteKey
        rw [if_pos h]
        rfl
      have hcons : s.runCalls (WalOperation.delete k :: calls) =
          Storage.runCalls (s.deleteKey k) calls := rfl
      rw [hcons, hstep, ih _ (by exact h)]
      simp [henc, List.append_assoc]

/-! ### Index lemmas -/

theorem getOffset_eq_none_iff (i : Index) (k : Str) :
    i.getOffset k = none ↔ ∀ p ∈ i.map, ¬((p.1 == k) = true) := by
  unfold Index.getOffset
  rw [Option.map_eq_none']
  exact List.find?_eq_none

theorem getOffset_insert_none (i : Index) (k k1 : Str) (off : Nat)
    (hne : k1 ≠ k) (h : i.getOffset k = none) :
    (i.insert k1 off).getOffset k = none := by
  rw [getOffset_eq_none_iff] at h ⊢
  intro p hp
  rcases List.mem_cons.mp hp with hhead | htail
  · subst hhead
    simpa using hne
  · exact h p (List.mem_of_mem_filter htail)

theorem getOffset_remove_none (i : Index) (k k1 : Str)
    (h : i.getOffset k = none) : (i.remove k1).getOffset k = none := by
  rw [getOffset_eq_none_iff] at h ⊢
  intro p hp
  exact h p (List.mem_of_mem_filter hp)

/-- Replaying operations none of which sets `k` never introduces an
index entry for `k`. -/
theorem applyOps_getOffset_none (s : Storage) (ops : List WalOperation) (k : Str)
    (hnoset : ∀ v, WalOperation.set k v ∉ ops)
    (hnone : s.index.getOffset k = none) :
    (s.applyOps ops).index.getOffset k = none := by
  induction ops generalizing s with
  | nil => exact hnone
  | cons op ops ih =>
    show ((s.applyOp op).applyOps ops).index.getOffset k = none
    apply ih
    · intro v hv
      exact hnoset v (List.mem_cons_of_mem _ hv)
    · cases op with
      | set k1 v =>
        have hne : k1 ≠ k := by
          intro he
          subst he
          exact hnoset v (List.mem_cons_self _ _)
        exact getOffset_insert_none s.index k k1 _ hne hnone
      | delete k1 =>
        simp only [Storage.applyOp]
        split
        · exact getOffset_remove_none s.index k k1 hnone
        · exact hnone

/-! ### More storage helper lemmas -/

theorem set_in_transaction (s : Storage) (k v : Str) :
    (s.set k v).2.in_transaction = s.in_transaction := by
  unfold Storage.set
  split <;> rfl

theorem deleteKey_in_transaction (s : Storage) (k : Str) :
    (s.deleteKey k).in_transaction = s.in_transaction := by
  unfold Storage.deleteKey
  split
  · rfl
  · split <;> rfl

theorem set_wal_idle (s : Storage) (k v : Str) (h : s.in_transaction = false) :
    (s.set k v).2.wal = s.wal := by
  unfold Storage.set
  rw [if_neg (by simp [h])]

theorem deleteKey_wal_idle (s : Storage) (k : Str) (h : s.in_transaction = false) :
    (s.deleteKey k).wal = s.wal := by
  unfold Storage.deleteKey
  rw [if_neg (by simp [h])]
  split <;> rfl

/-- The normal form of `Storage::new` over a WAL file holding exactly
the frames of `ops`. -/
theorem Storage.new_walEncode (segData : List Nat) (ops : List WalOperation)
    (hfits : ∀ op ∈ ops, op.fits) :
    Storage.new segData (walEncode ops) = some (
      if ops.isEmpty then
        { segment := Segment.new segData, index := Index.new,
          wal := WalSegment.new (walEncode ops), in_transaction := false }
      else
        { Storage.applyOps
            { segment := Segment.new segData, index := Index.new,
              wal := WalSegment.new (walEncode ops), in_transaction := false } ops
          with wal := ⟨[]⟩ }) := by
  have hread : (WalSegment.new (walEncode ops)).readOperations = some ops :=
    walReadLoop_walEncode ops hfits
  simp only [Storage.new, hread]
  split <;> rfl

/-- Field-wise equality of engine states. -/
theorem Storage.eq_of_fields (a b : Storage)
    (h1 : a.segment = b.segment) (h2 : a.index = b.index)
    (h3 : a.wal = b.wal) (h4 : a.in_transaction = b.in_transaction) : a = b := by
  cases a
  cases b
  cases h1
  cases h2
  cases h3
  cases h4
  rfl

/-- A single engine step can only extend the segment file. -/
theorem step_extends_data (s s' : Storage) (hstep : Step s s') :
    s.segment.data <+: s'.segment.data := by
  cases hstep with
  | set k v =>
    unfold Storage.set
    split
    · exact List.prefix_refl _
    · exact List.prefix_append _ _
  | deleteKey k =>
    unfold Storage.deleteKey
    split
    · exact List.prefix_refl _
    · split
      · exact List.prefix_append _ _
      · exact List.prefix_refl _
  | beginTransaction =>
    unfold Storage.beginTransaction
    split <;> exact List.prefix_refl _
  | commit =>
    unfold Storage.commit
    split
    · split
      · exact List.prefix_refl _
      · exact applyOps_extends_data s _
    · exact List.prefix_refl _
  | rollback => exact List.prefix_refl _

/-! ### Claim theorems -/

/-- C2.  Crash recovery: opening the engine over an empty segment file
and a WAL file holding exactly `[Set{"a","1"}, Set{"b","2"},
Delete{"a"}]` replays them in order, after which `get("a")` is `None`,
`get("b")` is `"2"`, and the WAL file is empty. -/
theorem crash_recovery_concrete :
    ∃ st : Storage, Storage.new [] (walEncode recoveryWalOps) = some st ∧
      st.get keyA = some none ∧
      st.get keyB = some (some valTwo) ∧
      st.wal.data = [] :=
  ⟨_, rfl, rfl, rfl, rfl⟩

/-- C3 (failing input).  On the reachable direct-mode state obtained by
`set("a","1"); delete("a")` from a fresh engine, a further
`set("b","2")` indexes `"b"` at offset 8 — but the bytes at offset 8 are
the tombstone's frame (the record decoded there has key `"deleted"`,
not `"b"`), because `Segment::delete` appended 13 bytes without
advancing `write_offset`.  Invariant I1 is violated, and the engine
even answers `get("b")` with `""` instead of `"2"`. -/
theorem index_invariant_violation :
    Storage.new [] [] = some freshStorage ∧
    afterDesync.in_transaction = false ∧
    (afterDesync.set keyB valTwo).2.index.getOffset keyB = some 8 ∧
    (afterDesync.set keyB valTwo).2.segment.get 8 = some tombstone ∧
    tombstone.key ≠ keyB ∧
    (afterDesync.set keyB valTwo).2.get keyB = some (some []) := by
  refine ⟨rfl, rfl, rfl, rfl, by decide, rfl⟩

/-- C7.  `begin()` while a transaction is active fails with
`TransactionAlreadyActive`, and `commit()` without an active
transaction fails with `NoActiveTransaction`; in both cases the
returned engine state is exactly the input state. -/
theorem usage_errors_leave_state_unchanged :
    (∀ s : Storage, s.in_transaction = true →
      s.beginTransaction = (Except.error StorageError.transactionAlreadyActive, s)) ∧
    ∀ s : Storage, s.in_transaction = false →
      s.commit = (Except.error StorageError.noActiveTransaction, s) := by
  constructor
  · intro s h
    unfold Storage.beginTransaction
    rw [if_pos h]
  · intro s h
    unfold Storage.commit
    rw [if_neg (by simp [h])]

/-- Witness for C7 at concrete states. -/
theorem usage_errors_leave_state_unchanged_witness :
    ({ freshStorage with in_transaction := true } : Storage).beginTransaction =
      (Except.error StorageError.transactionAlreadyActive,
        { freshStorage with in_transaction := true }) ∧
    freshStorage.commit = (Except.error StorageError.noActiveTransaction, freshStorage) :=
  ⟨usage_errors_leave_state_unchanged.1 { freshStorage with in_transaction := true } rfl,
    usage_errors_leave_state_unchanged.2 freshStorage rfl⟩

theorem foldl_logOperation_data (w : WalSegment) (ops : List WalOperation) :
    (ops.foldl WalSegment.logOperation w).data = w.data ++ walEncode ops := by
  induction ops generalizing w with
  | nil => simp [walEncode]
  | cons op ops ih =>
    show (ops.foldl WalSegment.logOperation (w.logOperation op)).data = _
    rw [ih]
    show (w.data ++ frame (encodeWalOp op)) ++ walEncode ops = _
    rw [List.append_assoc]
    rfl

/-- C8.  WAL round trip: logging any sequence of operations onto a
cleared WAL and then calling `read_operations` returns exactly that
sequence, in order (the loop stops successfully at the end-of-file
frame boundary); reading a cleared WAL returns the empty sequence. -/
theorem wal_round_trip (w : WalSegment) (ops : List WalOperation)
    (hfits : ∀ op ∈ ops, op.fits) :
    (ops.foldl WalSegment.logOperation w.clear).readOperations = some ops ∧
      (w.clear).readOperations = some [] := by
  constructor
  · show walReadLoop (ops.foldl WalSegment.logOperation w.clear).data = some ops
    rw [foldl_logOperation_data]
    show walReadLoop ([] ++ walEncode ops) = some ops
    rw [List.nil_append]
    exact walReadLoop_walEncode ops hfits
  · rfl

/-- Witness for C8: a WAL holding junk is cleared, two operations are
logged and read back. -/
theorem wal_round_trip_witness :
    (∀ op ∈ [WalOperation.set keyA valOne, WalOperation.delete keyB], op.fits) ∧
    (([WalOperation.set keyA valOne, WalOperation.delete keyB].foldl
        WalSegment.logOperation (WalSegment.clear ⟨[9, 9, 9]⟩)).readOperations =
      some [WalOperation.set keyA valOne, WalOperation.delete keyB] ∧
      (WalSegment.clear ⟨[9, 9, 9]⟩).readOperations = some []) :=
  ⟨by decide, wal_round_trip ⟨[9, 9, 9]⟩ _ (by decide)⟩

/-- C9.  `rollback()` performs no usage check: it succeeds in every
state (in particular with no active transaction), clears the WAL,
forces `in_transaction` to false and leaves index and segment
untouched. -/
theorem rollback_never_usage_error :
    (∀ s : Storage, s.rollback.1 = Except.ok ()) ∧
    ∀ s : Storage, s.in_transaction = false →
      s.rollback.2 = { s with wal := ⟨[]⟩, in_transaction := false } := by
  exact ⟨fun s => rfl, fun s h => rfl⟩

/-- Witness for C9 on an idle fresh engine. -/
theorem rollback_never_usage_error_witness :
    freshStorage.rollback.1 = Except.ok () ∧
      freshStorage.rollback.2 =
        { freshStorage with wal := ⟨[]⟩, in_transaction := false } :=
  ⟨rollback_never_usage_error.1 freshStorage,
    rollback_never_usage_error.2 freshStorage rfl⟩

/-- C4.  The segment log is append-only: `Segment::delete` appends the
sentinel record at the current end of file (its bytes land after the
existing data, never in place at the given offset, and the cursor is
left alone), and across any sequence of public engine operations the
old segment contents stay a prefix of the new ones, so the bytes at
every previously returned offset never change. -/
theorem segment_append_only :
    (∀ (seg : Segment) (offset : Nat),
      (seg.delete offset).data = seg.data ++ frame (encodeRecord tombstone) ∧
        (seg.delete offset).write_offset = seg.write_offset) ∧
    ∀ s s' : Storage, Relation.ReflTransGen Step s s' →
      s.segment.data <+: s'.segment.data := by
  refine ⟨fun seg offset => ⟨rfl, rfl⟩, fun s s' h => ?_⟩
  induction h with
  | refl => exact List.prefix_refl _
  | tail _ hstep ih => exact ih.trans (step_extends_data _ _ hstep)

/-- Witness for C4: one `delete` and one `set` starting from the fresh
engine only extend the segment file. -/
theorem segment_append_only_witness :
    ((freshStorage.segment.delete 0).data =
      freshStorage.segment.data ++ frame (encodeRecord tombstone)) ∧
    freshStorage.segment.data <+:
      ((freshStorage.set keyA valOne).2.deleteKey keyA).segment.data :=
  ⟨(segment_append_only.1 freshStorage.segment 0).1,
    segment_append_only.2 freshStorage ((freshStorage.set keyA valOne).2.deleteKey keyA)
      (Relation.ReflTransGen.tail
        (Relation.ReflTransGen.single (Step.set freshStorage keyA valOne))
        (Step.deleteKey (freshStorage.set keyA valOne).2 keyA))⟩

/-- C5 (counterexample).  On the reachable direct-mode engine
`afterDesync` (fresh engine, then `set("a","1"); delete("a")`), two
consecutive `set` calls on the distinct keys `"b"` and `"c"` return the
offsets 8 and 16 — but the first frame actually starts at byte 21
(`afterDesync`'s file is 21 bytes long), so `read_record` at the first
returned offset yields the tombstone record instead of
`{key:"b", value:"2"}`: the returned offset is not where the frame
starts, and reading it does not recover the corresponding record. -/
theorem offset_determinism_cex :
    afterDesync.in_transaction = false ∧
    keyB ≠ keyC ∧
    afterDesync.segment.data.length = 21 ∧
    (afterDesync.set keyB valTwo).1 = 8 ∧
    ((afterDesync.set keyB valTwo).2.set keyC valThree).1 = 16 ∧
    ((afterDesync.set keyB valTwo).2.set keyC valThree).2.segment.get 8 =
      some tombstone ∧
    tombstone ≠ { key := keyB, value := valTwo } := by
  refine ⟨rfl, by decide, rfl, rfl, rfl, rfl, by decide⟩

/-- The direct-mode normal form of `Storage::set`. -/
theorem set_idle_eq (s : Storage) (k v : Str) (h : s.in_transaction = false) :
    s.set k v =
      (s.segment.write_offset,
        { s with
            segment :=
              ⟨s.segment.data ++ frame (encodeRecord { key := k, value := v }),
                s.segment.write_offset + 4 +
                  (encodeRecord { key := k, value := v }).length⟩
            index := s.index.insert k s.segment.write_offset }) := by
  unfold Storage.set
  rw [if_neg (by simp [h])]
  rfl

/-- C5 (amended).  On any idle engine whose write cursor agrees with
the real end of the segment file (true of any engine that has written
no tombstone since it was opened), `set` returns the byte offset at
which the appended frame starts and advances the cursor by the frame's
total length (4-byte size prefix plus payload); two consecutive `set`
calls on distinct keys return strictly increasing offsets and
`read_record` at either returned offset recovers the corresponding
record. -/
theorem offset_determinism_synced (s : Storage) (k1 v1 k2 v2 : Str)
    (hsync : s.segment.write_offset = s.segment.data.length)
    (hidle : s.in_transaction = false)
    (hk : k1 ≠ k2)
    (h1 : (encodeRecord { key := k1, value := v1 }).length < 2 ^ 32)
    (h2 : (encodeRecord { key := k2, value := v2 }).length < 2 ^ 32) :
    (s.set k1 v1).1 = s.segment.data.length ∧
    (s.set k1 v1).2.segment.write_offset =
      (s.set k1 v1).1 + 4 + (encodeRecord { key := k1, value := v1 }).length ∧
    (s.set k1 v1).1 < ((s.set k1 v1).2.set k2 v2).1 ∧
    ((s.set k1 v1).2.set k2 v2).2.segment.get ((s.set k1 v1).1) =
      some { key := k1, value := v1 } ∧
    ((s.set k1 v1).2.set k2 v2).2.segment.get (((s.set k1 v1).2.set k2 v2).1) =
      some { key := k2, value := v2 } := by
  have hs1 := set_idle_eq s k1 v1 hidle
  have hs2 := set_idle_eq (s.set k1 v1).2 k2 v2
    (by rw [set_in_transaction]; exact hidle)
  refine ⟨by rw [hs1, hsync], by rw [hs1], ?_, ?_, ?_⟩
  · rw [hs2, hs1]
    show s.segment.write_offset < s.segment.write_offset + 4 + _
    omega
  · rw [hs2, hs1, hsync]
    have hget := Segment.get_frame_start s.segment.data
      (frame (encodeRecord { key := k2, value := v2 }))
      { key := k1, value := v1 }
      (s.segment.data.length + 4 + (encodeRecord { key := k1, value := v1 }).length +
        4 + (encodeRecord { key := k2, value := v2 }).length) h1
    rwa [← List.append_assoc] at hget
  · rw [hs2, hs1, hsync]
    have hlen : s.segment.data.length + 4 +
        (encodeRecord { key := k1, value := v1 }).length =
        (s.segment.data ++ frame (encodeRecord { key := k1, value := v1 })).length := by
      rw [List.length_append, length_frame]
      omega
    rw [hlen]
    have hget := Segment.get_frame_start
      (s.segment.data ++ frame (encodeRecord { key := k1, value := v1 })) []
      { key := k2, value := v2 }
      (s.segment.data.length + 4 + (encodeRecord { key := k1, value := v1 }).length +
        4 + (encodeRecord { key := k2, value := v2 }).length) h2
    rwa [List.append_nil] at hget

/-- Witness for C5 (amended): two sets on the fresh engine. -/
theorem offset_determinism_synced_witness :
    freshStorage.segment.write_offset = freshStorage.segment.data.length ∧
    freshStorage.in_transaction = false ∧
    ((freshStorage.set keyB valTwo).1 = freshStorage.segment.data.length ∧
      (freshStorage.set keyB valTwo).2.segment.write_offset =
        (freshStorage.set keyB valTwo).1 + 4 +
          (encodeRecord { key := keyB, value := valTwo }).length ∧
      (freshStorage.set keyB valTwo).1 <
        ((freshStorage.set keyB valTwo).2.set keyC valThree).1 ∧
      ((freshStorage.set keyB valTwo).2.set keyC valThree).2.segment.get
          ((freshStorage.set keyB valTwo).1) =
        some { key := keyB, value := valTwo } ∧
      ((freshStorage.set keyB valTwo).2.set keyC valThree).2.segment.get
          (((freshStorage.set keyB valTwo).2.set keyC valThree).1) =
        some { key := keyC, value := valThree }) :=
  ⟨rfl, rfl,
    offset_determinism_synced freshStorage keyB valTwo keyC valThree rfl rfl
      (by decide) (by decide) (by decide)⟩

/-- The normal form of a successful `Storage::commit`. -/
theorem commit_txn_eq (s : Storage) (h : s.in_transaction = true)
    (ops : List WalOperation) (hread : s.wal.readOperations = some ops) :
    s.commit =
      (Except.ok (), { s.applyOps ops with wal := ⟨[]⟩, in_transaction := false }) := by
  unfold Storage.commit
  rw [if_pos h, hread]
  rfl

/-- C1.  Transaction atomicity: from any idle engine, `begin()`
succeeds; issuing any sequence of `set`/`delete` calls then leaves the
segment and the index exactly as before the transaction and only
appends the corresponding `WalOperation`s to the WAL, so every `get`
still answers with the pre-transaction value; `commit()` then succeeds
and afterwards `get` agrees everywhere with the state obtained by
applying the buffered operations, in order, to the pre-transaction
engine. -/
theorem transaction_atomicity (s0 : Storage) (h : s0.in_transaction = false)
    (calls : List WalOperation) (hfits : ∀ op ∈ calls, op.fits) :
    s0.beginTransaction.1 = Except.ok () ∧
    (Storage.runCalls s0.beginTransaction.2 calls).segment = s0.segment ∧
    (Storage.runCalls s0.beginTransaction.2 calls).index = s0.index ∧
    (Storage.runCalls s0.beginTransaction.2 calls).wal.data = walEncode calls ∧
    (∀ k, (Storage.runCalls s0.beginTransaction.2 calls).get k = s0.get k) ∧
    (Storage.runCalls s0.beginTransaction.2 calls).commit.1 = Except.ok () ∧
    ∀ k, (Storage.runCalls s0.beginTransaction.2 calls).commit.2.get k =
      (s0.applyOps calls).get k := by
  have hbegin : s0.beginTransaction =
      (Except.ok (), { s0 with in_transaction := true, wal := ⟨[]⟩ }) := by
    unfold Storage.beginTransaction
    rw [if_neg (by simp [h])]
    rfl
  have hrun : Storage.runCalls s0.beginTransaction.2 calls =
      { s0 with in_transaction := true, wal := ⟨walEncode calls⟩ } := by
    rw [hbegin, runCalls_in_transaction _ calls rfl]
    simp
  have hcommit : (Storage.runCalls s0.beginTransaction.2 calls).commit =
      (Except.ok (),
        { Storage.applyOps
            { s0 with in_transaction := true, wal := ⟨walEncode calls⟩ } calls with
            wal := ⟨[]⟩, in_transaction := false }) := by
    rw [hrun]
    exact commit_txn_eq _ rfl calls (walReadLoop_walEncode calls hfits)
  refine ⟨by rw [hbegin], by rw [hrun], by rw [hrun], by rw [hrun], ?_, by rw [hcommit], ?_⟩
  · intro k
    exact get_congr _ _ k (by rw [hrun]) (by rw [hrun])
  · intro k
    rw [hcommit]
    have hc := applyOps_congr
      { s0 with in_transaction := true, wal := ⟨walEncode calls⟩ } s0 calls rfl rfl
    exact get_congr _ _ k hc.1 hc.2

/-- Witness for C1: a transaction over the fresh engine that sets "a"
and then deletes it. -/
theorem transaction_atomicity_witness :
    freshStorage.in_transaction = false ∧
    (freshStorage.beginTransaction.1 = Except.ok () ∧
      (Storage.runCalls freshStorage.beginTransaction.2
        [WalOperation.set keyA valOne, WalOperation.delete keyA]).segment =
        freshStorage.segment ∧
      (Storage.runCalls freshStorage.beginTransaction.2
        [WalOperation.set keyA valOne, WalOperation.delete keyA]).index =
        freshStorage.index ∧
      (Storage.runCalls freshStorage.beginTransaction.2
        [WalOperation.set keyA valOne, WalOperation.delete keyA]).wal.data =
        walEncode [WalOperation.set keyA valOne, WalOperation.delete keyA] ∧
      (∀ k, (Storage.runCalls freshStorage.beginTransaction.2
        [WalOperation.set keyA valOne, WalOperation.delete keyA]).get k =
        freshStorage.get k) ∧
      (Storage.runCalls freshStorage.beginTransaction.2
        [WalOperation.set keyA valOne, WalOperation.delete keyA]).commit.1 =
        Except.ok () ∧
      ∀ k, (Storage.runCalls freshStorage.beginTransaction.2
        [WalOperation.set keyA valOne, WalOperation.delete keyA]).commit.2.get k =
        (freshStorage.applyOps
          [WalOperation.set keyA valOne, WalOperation.delete keyA]).get k) :=
  ⟨rfl, transaction_atomicity freshStorage rfl
    [WalOperation.set keyA valOne, WalOperation.delete keyA] (by decide)⟩

/-- C6.  Invariant I2: in every state reachable from a freshly opened
engine by the public operations (startup recovery included), the WAL
file is empty whenever `in_transaction` is false — commit, rollback and
recovery all clear the WAL before the engine is next observable
outside a transaction. -/
theorem wal_empty_when_idle (s : Storage) (hr : Reachable s)
    (hidle : s.in_transaction = false) : s.wal.data = [] := by
  revert hidle
  induction hr with
  | base segData ops st hfits hnew =>
    intro hidle
    rw [Storage.new_walEncode segData ops hfits] at hnew
    injection hnew with hst
    subst hst
    by_cases hemp : ops.isEmpty = true
    · rw [if_pos hemp]
      have hops : ops = [] := List.isEmpty_iff.mp hemp
      subst hops
      rfl
    · rw [if_neg hemp]
  | step s s' hs hstep ih =>
    intro hidle
    cases hstep with
    | set k v =>
      rw [set_in_transaction] at hidle
      rw [set_wal_idle s k v hidle]
      exact ih hidle
    | deleteKey k =>
      rw [deleteKey_in_transaction] at hidle
      rw [deleteKey_wal_idle s k hidle]
      exact ih hidle
    | beginTransaction =>
      by_cases ht : s.in_transaction = true
      · have hb : s.beginTransaction =
            (Except.error StorageError.transactionAlreadyActive, s) := by
          unfold Storage.beginTransaction
          rw [if_pos ht]
        rw [hb] at hidle ⊢
        exact ih hidle
      · have hb : s.beginTransaction =
            (Except.ok (), { s with in_transaction := true, wal := ⟨[]⟩ }) := by
          unfold Storage.beginTransaction
          rw [if_neg ht]
          rfl
        rw [hb] at hidle
        simp at hidle
    | commit =>
      by_cases ht : s.in_transaction = true
      · cases hread : s.wal.readOperations with
        | none =>
          have hc : s.commit = (Except.error StorageError.corruptFrame, s) := by
            unfold Storage.commit
            rw [if_pos ht, hread]
          rw [hc] at hidle ⊢
          exact ih hidle
        | some ops =>
          rw [commit_txn_eq s ht ops hread]
      · have hc : s.commit = (Except.error StorageError.noActiveTransaction, s) := by
          unfold Storage.commit
          rw [if_neg ht]
        rw [hc] at hidle ⊢
        exact ih hidle
    | rollback => rfl

/-- Witness for C6: the freshly opened engine is idle with an empty
WAL. -/
theorem wal_empty_when_idle_witness : freshStorage.wal.data = [] :=
  wal_empty_when_idle freshStorage
    (Reachable.base [] [] freshStorage (by simp) rfl) rfl

/-- Replaying a `Delete` whose key is not indexed at that point of the
replay, because no earlier operation of the sequence set it and the
index held nothing for it to begin with, changes nothing. -/
theorem applyOps_skip_delete (s : Storage) (pre post : List WalOperation) (k : Str)
    (hnoset : ∀ v, WalOperation.set k v ∉ pre)
    (hnone : s.index.getOffset k = none) :
    s.applyOps (pre ++ WalOperation.delete k :: post) = s.applyOps (pre ++ post) := by
  have hmid : (s.applyOps pre).index.getOffset k = none :=
    applyOps_getOffset_none s pre k hnoset hnone
  have h1 : s.applyOps (pre ++ WalOperation.delete k :: post) =
      (s.applyOps pre).applyOps (WalOperation.delete k :: post) := by
    unfold Storage.applyOps
    rw [List.foldl_append]
  have h2 : s.applyOps (pre ++ post) = (s.applyOps pre).applyOps post := by
    unfold Storage.applyOps
    rw [List.foldl_append]
  have h3 : (s.applyOps pre).applyOps (WalOperation.delete k :: post) =
      ((s.applyOps pre).applyOp (WalOperation.delete k)).applyOps post := rfl
  have hskip : (s.applyOps pre).applyOp (WalOperation.delete k) = s.applyOps pre := by
    simp only [Storage.applyOp]
    rw [hmid]
  rw [h1, h3, hskip, ← h2]

/-- C10.  During startup recovery the index starts empty, so a WAL
`Delete{key}` with no earlier `Set` of the same key in the WAL sequence
is skipped entirely: opening the engine over that WAL yields exactly
the engine obtained from the same WAL with the `Delete` removed (no
tombstone is appended, index and segment are untouched by it). -/
theorem recovery_skips_unmatched_delete (segData : List Nat)
    (pre post : List WalOperation) (k : Str)
    (hnoset : ∀ v, WalOperation.set k v ∉ pre)
    (hfits : ∀ op ∈ pre ++ WalOperation.delete k :: post, op.fits) :
    Storage.new segData (walEncode (pre ++ WalOperation.delete k :: post)) =
      Storage.new segData (walEncode (pre ++ post)) := by
  have hfits2 : ∀ op ∈ pre ++ post, op.fits := by
    intro op hop
    apply hfits
    rcases List.mem_append.mp hop with h1 | h2
    · exact List.mem_append_left _ h1
    · exact List.mem_append_right _ (List.mem_cons_of_mem _ h2)
  rw [Storage.new_walEncode segData _ hfits, Storage.new_walEncode segData _ hfits2]
  have hne : ¬((pre ++ WalOperation.delete k :: post).isEmpty = true) := by
    simp
  rw [if_neg hne]
  congr 1
  by_cases hemp : (pre ++ post).isEmpty = true
  · rw [if_pos hemp]
    obtain ⟨hpre, hpost⟩ := List.append_eq_nil.mp (List.isEmpty_iff.mp hemp)
    subst hpre
    subst hpost
    rfl
  · rw [if_neg hemp]
    have hskipL := applyOps_skip_delete
      { segment := Segment.new segData, index := Index.new,
        wal := WalSegment.new (walEncode (pre ++ WalOperation.delete k :: post)),
        in_transaction := false } pre post k hnoset rfl
    have hcSI := applyOps_congr
      { segment := Segment.new segData, index := Index.new,
        wal := WalSegment.new (walEncode (pre ++ WalOperation.delete k :: post)),
        in_transaction := false }
      { segment := Segment.new segData, index := Index.new,
        wal := WalSegment.new (walEncode (pre ++ post)), in_transaction := false }
      (pre ++ post) rfl rfl
    refine Storage.eq_of_fields _ _ ?_ ?_ rfl ?_
    · show (Storage.applyOps _ _).segment = (Storage.applyOps _ _).segment
      rw [hskipL]
      exact hcSI.1
    · show (Storage.applyOps _ _).index = (Storage.applyOps _ _).index
      rw [hskipL]
      exact hcSI.2
    · show (Storage.applyOps _ _).in_transaction = (Storage.applyOps _ _).in_transaction
      rw [applyOps_in_transaction, applyOps_in_transaction]

/-- Witness for C10: recovering over `[Set{"b","2"}, Delete{"a"}]`
equals recovering over `[Set{"b","2"}]`. -/
theorem recovery_skips_unmatched_delete_witness :
    (∀ v, WalOperation.set keyA v ∉ [WalOperation.set keyB valTwo]) ∧
      Storage.new [] (walEncode
        ([WalOperation.set keyB valTwo] ++ WalOperation.delete keyA :: [])) =
        Storage.new [] (walEncode ([WalOperation.set keyB valTwo] ++ [])) :=
  ⟨fun v hv => by simp [keyA, keyB] at hv,
    recovery_skips_unmatched_delete [] [WalOperation.set keyB valTwo] [] keyA
      (fun v hv => by simp [keyA, keyB] at hv) (by decide)⟩

end MiniBitcask
